import Mathlib

/-!
Verification development for the ut4-update-packager repository.

The Go sources (src/packager/packager.go and the older packager variant)
are shallowly embedded below: Go maps become association lists
(`List (String × String)`), Go map lookup becomes `List.lookup`, and the
I/O-performing parts of the orchestrator are modelled by explicit
parameters (injected collaborator results) and effect traces.
-/

namespace Ut4Packager

/-- Delta operation constants, from the `const` block of the packager. -/
def deltaOperationAdded : String := "added"

/-- Delta operation constant for modified files. -/
def deltaOperationModified : String := "modified"

/-- Delta operation constant for removed files. -/
def deltaOperationRemoved : String := "removed"

/-- A version's file manifest: relative path mapped to a hex digest.
Go's `map[string]string` is embedded as an association list; faithfulness
requires the key list to be duplicate-free, which the Go map guarantees. -/
abbrev Manifest := List (String × String)

/-- Keys of a manifest are pairwise distinct (the Go `map` invariant). -/
def KeysNodup (m : Manifest) : Prop := (m.map Prod.fst).Nodup

instance (m : Manifest) : Decidable (KeysNodup m) :=
  inferInstanceAs (Decidable ((m.map Prod.fst).Nodup))

/-- First loop of `calculateHashDeltaOperations`: for every file in the
from-version hashes, mark it modified when the to-version digest differs
and removed when the file is absent from the to-version hashes. -/
def deltaPass1 (fromVersionHashes toVersionHashes : Manifest) : Manifest :=
  fromVersionHashes.filterMap fun e =>
    match List.lookup e.1 toVersionHashes with
    | some nextHash =>
        if nextHash ≠ e.2 then some (e.1, deltaOperationModified) else none
    | none => some (e.1, deltaOperationRemoved)

/-- Second loop of `calculateHashDeltaOperations`: every file of the
to-version hashes that is absent from the from-version hashes is added. -/
def deltaPass2 (fromVersionHashes toVersionHashes : Manifest) : Manifest :=
  toVersionHashes.filterMap fun e =>
    match List.lookup e.1 fromVersionHashes with
    | some _ => none
    | none => some (e.1, deltaOperationAdded)

/-- `calculateHashDeltaOperations` from packager.go: the delta map built by
the two passes.  The Go code inserts into one map; since the two passes
touch disjoint key sets, list concatenation has the same lookup function. -/
def calculateHashDeltaOperations
    (fromVersionHashes toVersionHashes : Manifest) : Manifest :=
  deltaPass1 fromVersionHashes toVersionHashes ++
    deltaPass2 fromVersionHashes toVersionHashes

/-- The per-path specification of the delta lookup, by case on the two
manifests' entries for the path. -/
def deltaLookupSpec : Option String → Option String → Option String
  | some h, some nextHash =>
      if nextHash ≠ h then some deltaOperationModified else none
  | some _, none => some deltaOperationRemoved
  | none, some _ => some deltaOperationAdded
  | none, none => none

theorem lookup_deltaPass1 (fromM toM : Manifest) (hf : KeysNodup fromM)
    (p : String) :
    List.lookup p (deltaPass1 fromM toM) =
      match List.lookup p fromM with
      | none => none
      | some h =>
        match List.lookup p toM with
        | some nextHash =>
            if nextHash ≠ h then some deltaOperationModified else none
        | none => some deltaOperationRemoved := by
  induction fromM with
  | nil => simp [deltaPass1]
  | cons e t ih =>
      obtain ⟨k, v⟩ := e
      rw [KeysNodup, List.map_cons, List.nodup_cons] at hf
      obtain ⟨hk, hndt⟩ := hf
      have iht := ih hndt
      by_cases hpk : p = k
      · subst hpk
        have hpt : List.lookup p t = none := by
          rw [List.lookup_eq_none_iff]
          intro q hq
          simp only [bne_iff_ne]
          intro hcon
          exact hk (List.mem_map.mpr ⟨q, hq, hcon.symm⟩)
        rw [deltaPass1, List.filterMap_cons]
        cases hcase : List.lookup p toM with
        | some nextHash =>
            by_cases hne : nextHash ≠ v
            · simp only [hcase, if_pos hne, List.lookup_cons_self]
            · simp only [hcase, if_neg hne]
              rw [← deltaPass1, iht, hpt]
              simp [List.lookup_cons_self, hcase, hne]
        | none =>
            simp only [hcase, List.lookup_cons_self]
      · have hb : (p == k) = false := beq_eq_false_iff_ne.mpr hpk
        have hlk : List.lookup p ((k, v) :: t) = List.lookup p t := by
          rw [List.lookup_cons, hb]
        rw [hlk, deltaPass1, List.filterMap_cons]
        cases hcase : List.lookup k toM with
        | some nextHash =>
            by_cases hne : nextHash ≠ v
            · simp only [hcase, if_pos hne]
              rw [List.lookup_cons, hb, ← deltaPass1, iht]
            · simp only [hcase, if_neg hne]
              rw [← deltaPass1, iht]
        | none =>
            simp only [hcase]
            rw [List.lookup_cons, hb, ← deltaPass1, iht]

theorem lookup_deltaPass2 (fromM toM : Manifest) (ht : KeysNodup toM)
    (p : String) :
    List.lookup p (deltaPass2 fromM toM) =
      match List.lookup p toM with
      | none => none
      | some _ =>
        match List.lookup p fromM with
        | some _ => none
        | none => some deltaOperationAdded := by
  induction toM with
  | nil => simp [deltaPass2]
  | cons e t ih =>
      obtain ⟨k, v⟩ := e
      rw [KeysNodup, List.map_cons, List.nodup_cons] at ht
      obtain ⟨hk, hndt⟩ := ht
      have iht := ih hndt
      by_cases hpk : p = k
      · subst hpk
        have hpt : List.lookup p t = none := by
          rw [List.lookup_eq_none_iff]
          intro q hq
          simp only [bne_iff_ne]
          intro hcon
          exact hk (List.mem_map.mpr ⟨q, hq, hcon.symm⟩)
        rw [deltaPass2, List.filterMap_cons]
        cases hcase : List.lookup p fromM with
        | some h0 =>
            simp only [hcase]
            rw [← deltaPass2, iht, hpt]
            simp [List.lookup_cons_self, hcase]
        | none =>
            simp only [hcase, List.lookup_cons_self]
      · have hb : (p == k) = false := beq_eq_false_iff_ne.mpr hpk
        have hlk : List.lookup p ((k, v) :: t) = List.lookup p t := by
          rw [List.lookup_cons, hb]
        rw [hlk, deltaPass2, List.filterMap_cons]
        cases hcase : List.lookup k fromM with
        | some h0 =>
            simp only [hcase]
            rw [← deltaPass2, iht]
        | none =>
            simp only [hcase]
            rw [List.lookup_cons, hb, ← deltaPass2, iht]

theorem lookup_calculateHashDeltaOperations (fromM toM : Manifest)
    (hf : KeysNodup fromM) (ht : KeysNodup toM) (p : String) :
    List.lookup p (calculateHashDeltaOperations fromM toM) =
      deltaLookupSpec (List.lookup p fromM) (List.lookup p toM) := by
  rw [calculateHashDeltaOperations, List.lookup_append,
    lookup_deltaPass1 fromM toM hf p, lookup_deltaPass2 fromM toM ht p]
  cases hfrom : List.lookup p fromM with
  | some h =>
      cases hto : List.lookup p toM with
      | some nextHash =>
          by_cases hne : nextHash ≠ h
          · simp [deltaLookupSpec, hne]
          · simp [deltaLookupSpec, hne]
      | none => simp [deltaLookupSpec]
  | none =>
      cases hto : List.lookup p toM with
      | some nextHash => simp [deltaLookupSpec]
      | none => simp [deltaLookupSpec]

theorem added_ne_modified : deltaOperationAdded ≠ deltaOperationModified := by
  decide

theorem added_ne_removed : deltaOperationAdded ≠ deltaOperationRemoved := by
  decide

theorem modified_ne_removed : deltaOperationModified ≠ deltaOperationRemoved := by
  decide

theorem modified_ne_added : deltaOperationModified ≠ deltaOperationAdded := by
  decide

theorem removed_ne_added : deltaOperationRemoved ≠ deltaOperationAdded := by
  decide

theorem removed_ne_modified : deltaOperationRemoved ≠ deltaOperationModified := by
  decide

/-- C1: `calculateHashDeltaOperations` marks a path removed iff it is in the
from-manifest and absent from the to-manifest, modified iff it is in both
with different digests, added iff it is only in the to-manifest, omits it
iff its digest is unchanged, and every path present in the result carries
exactly one of the three operation values. -/
theorem calculateHashDeltaOperations_classification
    (fromM toM : Manifest) (hf : KeysNodup fromM) (ht : KeysNodup toM)
    (p : String) :
    (List.lookup p (calculateHashDeltaOperations fromM toM) =
        some deltaOperationRemoved ↔
      (List.lookup p fromM).isSome ∧ List.lookup p toM = none)
    ∧ (List.lookup p (calculateHashDeltaOperations fromM toM) =
        some deltaOperationModified ↔
      ∃ h nextHash, List.lookup p fromM = some h ∧
        List.lookup p toM = some nextHash ∧ nextHash ≠ h)
    ∧ (List.lookup p (calculateHashDeltaOperations fromM toM) =
        some deltaOperationAdded ↔
      List.lookup p fromM = none ∧ (List.lookup p toM).isSome)
    ∧ (List.lookup p (calculateHashDeltaOperations fromM toM) = none ↔
      List.lookup p fromM = List.lookup p toM)
    ∧ (∀ op, List.lookup p (calculateHashDeltaOperations fromM toM) =
        some op →
      op = deltaOperationAdded ∨ op = deltaOperationModified ∨
        op = deltaOperationRemoved) := by
  have key := lookup_calculateHashDeltaOperations fromM toM hf ht p
  rw [key]
  rcases hfrom : List.lookup p fromM with _ | h <;>
    rcases hto : List.lookup p toM with _ | nextHash
  · simp [deltaLookupSpec]
  · simp [deltaLookupSpec, added_ne_removed, added_ne_modified]
  · simp [deltaLookupSpec, removed_ne_modified, removed_ne_added]
  · by_cases hne : nextHash ≠ h
    · simp [deltaLookupSpec, hne, Ne.symm hne, modified_ne_removed,
        modified_ne_added]
    · push_neg at hne
      subst hne
      simp [deltaLookupSpec]

/-- Witness for C1 on the spec's Scenario A manifests at path b.dat. -/
theorem calculateHashDeltaOperations_classification_witness :
    (List.lookup "b.dat"
        (calculateHashDeltaOperations
          [("a.txt", "H1"), ("b.dat", "H2")]
          [("a.txt", "H1"), ("b.dat", "H3"), ("c.txt", "H4")]) =
      some deltaOperationModified ↔
      ∃ h nextHash,
        List.lookup "b.dat" [("a.txt", "H1"), ("b.dat", "H2")] = some h ∧
        List.lookup "b.dat"
          [("a.txt", "H1"), ("b.dat", "H3"), ("c.txt", "H4")] =
            some nextHash ∧ nextHash ≠ h) :=
  (calculateHashDeltaOperations_classification
    [("a.txt", "H1"), ("b.dat", "H2")]
    [("a.txt", "H1"), ("b.dat", "H3"), ("c.txt", "H4")]
    (by decide) (by decide) "b.dat").2.1

/-- Helper for `filepathExt`: scans the reversed character list of the
final path element, accumulating the candidate extension characters. -/
def filepathExtAux : List Char → List Char → String
  | _, [] => ""
  | acc, c :: rest =>
      if c = '/' then ""
      else if c = '.' then String.mk ('.' :: acc)
      else filepathExtAux (c :: acc) rest

/-- Go's `filepath.Ext`: the suffix beginning at the final dot in the final
slash-separated element of the path, including the dot; empty otherwise. -/
def filepathExt (path : String) : String :=
  filepathExtAux [] path.data.reverse

/-- Go's `strings.ToLower`, character by character. -/
def toLowerString (s : String) : String :=
  String.mk (s.data.map Char.toLower)

/-- The files copied into the working package directory by the loop of
`generateUpgradePath`: every added or modified file, except that a file
whose lowercased extension equals the literal "pak" is skipped when it is
modified. -/
def payloadFiles (deltaOperations : List (String × String)) : List String :=
  deltaOperations.filterMap fun e =>
    if e.2 = deltaOperationAdded ∨ e.2 = deltaOperationModified then
      if toLowerString (filepathExt e.1) = "pak" ∧
          e.2 = deltaOperationModified then
        none
      else some e.1
    else none

/-- The contents of the `operations.json` descriptor written into the
package: `json.Marshal` of the delta operations map, unchanged. -/
def packageDescriptor
    (deltaOperations : List (String × String)) : List (String × String) :=
  deltaOperations

/-- Observable side effects of `generateUpgradePath`. -/
inductive PackEffect where
  | getHashes (version : String)
  | copyFile (relativePath : String)
  | writeDescriptor (ops : List (String × String))
  | createArchive (path : String)
deriving DecidableEq

/-- `generateUpgradePath` from packager.go, embedded with the version-hash
retrieval injected and the performed filesystem effects collected in
order: the guard on equal versions, the two hash lookups, the copy loop,
the descriptor write and the archive creation. -/
def generateUpgradePathModel (workingDir fromVersion toVersion : String)
    (getHashesResult : String → Except String Manifest) :
    Except String String × List PackEffect :=
  if fromVersion = toVersion then
    (Except.error "fromVersion and toVersion can't be the same", [])
  else
    match getHashesResult fromVersion with
    | Except.error e => (Except.error e, [PackEffect.getHashes fromVersion])
    | Except.ok fromVersionHashes =>
      match getHashesResult toVersion with
      | Except.error e =>
          (Except.error e,
            [PackEffect.getHashes fromVersion, PackEffect.getHashes toVersion])
      | Except.ok toVersionHashes =>
        let deltaOperations :=
          calculateHashDeltaOperations fromVersionHashes toVersionHashes
        let compressedPath :=
          workingDir ++ "/" ++ fromVersion ++ "-" ++ toVersion ++ ".tar.gz"
        (Except.ok compressedPath,
          [PackEffect.getHashes fromVersion, PackEffect.getHashes toVersion]
            ++ (payloadFiles deltaOperations).map PackEffect.copyFile
            ++ [PackEffect.writeDescriptor (packageDescriptor deltaOperations),
                PackEffect.createArchive compressedPath])

theorem filepathExtAux_empty_or_dot (cs acc : List Char) :
    filepathExtAux acc cs = "" ∨
      ∃ rest, filepathExtAux acc cs = String.mk ('.' :: rest) := by
  induction cs generalizing acc with
  | nil => exact Or.inl rfl
  | cons c rest ih =>
      by_cases hslash : c = '/'
      · exact Or.inl (by simp [filepathExtAux, hslash])
      · by_cases hdot : c = '.'
        · exact Or.inr ⟨acc, by simp [filepathExtAux, hslash, hdot]⟩
        · have := ih (c :: acc)
          simpa [filepathExtAux, hslash, hdot] using this

theorem mk_dot_ne_pak (xs : List Char) : String.mk ('.' :: xs) ≠ "pak" := by
  intro hcon
  have hdata : '.' :: xs = "pak".data := congrArg String.data hcon
  have hpak : "pak".data = ['p', 'a', 'k'] := rfl
  rw [hpak] at hdata
  have hhead : '.' = 'p' := (List.cons.injEq _ _ _ _ ▸ hdata).1
  exact absurd hhead (by decide)

theorem toLower_filepathExt_ne_pak (p : String) :
    toLowerString (filepathExt p) ≠ "pak" := by
  rcases filepathExtAux_empty_or_dot p.data.reverse [] with hempty | ⟨rest, hdot⟩
  · rw [filepathExt, hempty]
    intro hcon
    exact absurd (congrArg String.data hcon) (by decide)
  · rw [filepathExt, hdot]
    have hlow : toLowerString (String.mk ('.' :: rest)) =
        String.mk ('.' :: rest.map Char.toLower) := by
      rw [toLowerString, List.map_cons]
      rfl
    rw [hlow]
    exact mk_dot_ne_pak (rest.map Char.toLower)

/-- C2 counterexample: for the delta marking `x.pak` as modified, the copy
loop does place `x.pak` in the package payload (the code compares the
extension, which carries its leading dot, against the dotless literal
"pak", so the exclusion never fires), and the descriptor records the
operation as "modified", not "modified-deferred". -/
theorem pakExclusion_counterexample :
    "x.pak" ∈ payloadFiles [("x.pak", deltaOperationModified)] ∧
      List.lookup "x.pak"
          (packageDescriptor [("x.pak", deltaOperationModified)]) ≠
        some "modified-deferred" ∧
      filepathExt "x.pak" = ".pak" := by
  refine ⟨?_, ?_, ?_⟩
  · decide
  · decide
  · decide

/-- C2 amended: every path marked modified in the delta — pak files
included, since the extension comparison against the dotless literal "pak"
never matches — is copied into the package payload, and the descriptor
serialized into the package records it with the operation value
"modified". -/
theorem pak_modified_copied (delta : List (String × String)) (p : String)
    (hmem : (p, deltaOperationModified) ∈ delta) :
    p ∈ payloadFiles delta ∧
      List.lookup p (packageDescriptor delta) = List.lookup p delta := by
  constructor
  · rw [payloadFiles, List.mem_filterMap]
    refine ⟨(p, deltaOperationModified), hmem, ?_⟩
    have hcond : ¬(toLowerString (filepathExt p) = "pak" ∧
        deltaOperationModified = deltaOperationModified) := by
      intro hcon
      exact toLower_filepathExt_ne_pak p hcon.1
    rw [if_pos (Or.inr rfl), if_neg hcond]
  · rfl

/-- Witness for the amended C2 theorem at the spec's Scenario B delta. -/
theorem pak_modified_copied_witness :
    "x.pak" ∈ payloadFiles [("x.pak", deltaOperationModified)] ∧
      List.lookup "x.pak"
          (packageDescriptor [("x.pak", deltaOperationModified)]) =
        List.lookup "x.pak" [("x.pak", deltaOperationModified)] :=
  pak_modified_copied [("x.pak", deltaOperationModified)] "x.pak"
    (List.mem_singleton.mpr rfl)

/-- Character-wise comparison giving Go's `<` on strings (byte order on
ASCII data). -/
def goStringLess : List Char → List Char → Bool
  | [], [] => false
  | [], _ :: _ => true
  | _ :: _, [] => false
  | a :: as, b :: bs =>
      if a.toNat < b.toNat then true
      else if b.toNat < a.toNat then false
      else goStringLess as bs

/-- The skip test `version >= newVersion` from the per-version loop of
`Run`, exactly as the Go code writes it: string comparison. -/
def versionSkipped (version newVersion : String) : Bool :=
  !goStringLess version.data newVersion.data

/-- The versions for which the `Run` loop attempts (or idempotently skips)
an upgrade package, i.e. those not rejected by the string comparison. -/
def attemptedVersions (versions : List String) (newVersion : String) :
    List String :=
  versions.filter fun v => !versionSkipped v newVersion

/-- Decimal value of a version string (versions are `strconv.Itoa` output,
so plain base-10 numerals). -/
def versionNumber (v : String) : Nat :=
  v.data.foldl (fun n c => n * 10 + (c.toNat - 48)) 0

/-- C3: the loop guard compares version strings with the string `>=`
operator, so known version "9" is skipped for new version "10" even though
9 < 10 numerically; the claim's numeric-comparison behaviour fails for
digit widths that differ. -/
theorem versionComparison_string_bug :
    versionSkipped "9" "10" = true ∧
      attemptedVersions ["9"] "10" = [] ∧
      versionNumber "9" = 9 ∧ versionNumber "10" = 10 ∧
      versionNumber "9" < versionNumber "10" := by
  refine ⟨by decide, by decide, by decide, by decide, by decide⟩

/-- C10: `generateUpgradePath` called with equal from- and to-versions
fails on the guard at the top of the function: it returns the error about
equal versions and performs no hash retrieval, no file copy, no descriptor
write and no archive creation. -/
theorem generateUpgradePath_same_version (workingDir v : String)
    (getHashesResult : String → Except String Manifest) :
    generateUpgradePathModel workingDir v v getHashesResult =
      (Except.error "fromVersion and toVersion can't be the same", []) := by
  simp [generateUpgradePathModel]

/-- The per-version loop of `Run`, embedded for error propagation.  The
database check and the package generation are injected.  When
`generateUpgradePath` fails, the Go code only logs the error and falls
through with the zero-value package path "", and the subsequent
`os.Rename("", ...)` fails and makes `Run` return that error.  The result
is the list of versions whose packages were persisted, paired with the
error that aborted the loop, if any. -/
def runVersionLoop (newVersion : String) (recordExists : String → Bool)
    (generateResult : String → Except String String) :
    List String → List String × Option String
  | [] => ([], none)
  | v :: rest =>
    if versionSkipped v newVersion then
      runVersionLoop newVersion recordExists generateResult rest
    else if recordExists v then
      runVersionLoop newVersion recordExists generateResult rest
    else
      let packagePath :=
        match generateResult v with
        | Except.ok p => p
        | Except.error _ => ""
      if packagePath = "" then ([], some "rename failed: no such file")
      else
        let next := runVersionLoop newVersion recordExists generateResult rest
        (v :: next.1, next.2)

/-- C4: a failure while generating one pair aborts the whole loop.  With
known versions "100" and "200", new version "300", no pre-existing
records, generation failing for "100" and succeeding for "200", `Run`
returns the rename error and never processes the pair for "200" — the
claim that a single-pair failure never aborts the per-version loop fails. -/
theorem runLoop_aborts_on_pair_failure :
    runVersionLoop "300" (fun _ => false)
        (fun v => if v = "100" then Except.error "walk failed"
          else Except.ok "/tmp/100-300.tar.gz")
        ["100", "200"] =
      ([], some "rename failed: no such file") ∧
    runVersionLoop "300" (fun _ => false)
        (fun _ => Except.ok "/tmp/pkg.tar.gz")
        ["200"] = (["200"], none) := by
  constructor
  · rfl
  · rfl

/-- The per-version loop of `Run`, embedded for persistence: the store of
(fromVersion, toVersion) upgrade-package records is threaded through, the
existence check is the database query, and every generation and rename is
assumed to succeed.  A record is appended exactly when the version is not
skipped by the string comparison and no record for the pair exists yet. -/
def runPersistLoop (newVersion : String) :
    List String → List (String × String) → List (String × String)
  | [], store => store
  | v :: rest, store =>
    if versionSkipped v newVersion then runPersistLoop newVersion rest store
    else if store.any fun r => r.1 = v ∧ r.2 = newVersion then
      runPersistLoop newVersion rest store
    else runPersistLoop newVersion rest (store ++ [(v, newVersion)])

theorem runPersistLoop_store_mono (newVersion : String)
    (versions : List String) (store : List (String × String))
    (r : String × String) (h : r ∈ store) :
    r ∈ runPersistLoop newVersion versions store := by
  induction versions generalizing store with
  | nil => exact h
  | cons v rest ih =>
      rw [runPersistLoop]
      by_cases hskip : versionSkipped v newVersion
      · simp only [if_pos hskip]
        exact ih store h
      · simp only [if_neg hskip]
        by_cases hex : store.any fun q => q.1 = v ∧ q.2 = newVersion
        · simp only [if_pos hex]
          exact ih store h
        · simp only [if_neg hex]
          exact ih (store ++ [(v, newVersion)]) (List.mem_append_left _ h)

theorem runPersistLoop_count_of_mem (newVersion : String)
    (versions : List String) (store : List (String × String))
    (v : String) (h : (v, newVersion) ∈ store) :
    List.count (v, newVersion) (runPersistLoop newVersion versions store) =
      List.count (v, newVersion) store := by
  induction versions generalizing store with
  | nil => rfl
  | cons w rest ih =>
      rw [runPersistLoop]
      by_cases hskip : versionSkipped w newVersion
      · simp only [if_pos hskip]
        exact ih store h
      · simp only [if_neg hskip]
        by_cases hex : store.any fun q => q.1 = w ∧ q.2 = newVersion
        · simp only [if_pos hex]
          exact ih store h
        · simp only [if_neg hex]
          have hwv : w ≠ v := by
            intro hcon
            subst hcon
            exact hex (List.any_eq_true.mpr ⟨(w, newVersion), h, by simp⟩)
          have hcount : List.count (v, newVersion)
              (store ++ [(w, newVersion)]) =
                List.count (v, newVersion) store := by
            rw [List.count_append]
            have h0 : List.count (v, newVersion) [(w, newVersion)] = 0 := by
              simp [hwv, Ne.symm hwv]
            rw [h0, Nat.add_zero]
          rw [ih (store ++ [(w, newVersion)])
            (List.mem_append_left _ h), hcount]

theorem runPersistLoop_count_le_one (newVersion : String)
    (versions : List String) (store : List (String × String))
    (v : String) (h : List.count (v, newVersion) store = 0) :
    List.count (v, newVersion) (runPersistLoop newVersion versions store) ≤
      1 := by
  induction versions generalizing store with
  | nil => rw [runPersistLoop, h]; exact Nat.zero_le 1
  | cons w rest ih =>
      rw [runPersistLoop]
      by_cases hskip : versionSkipped w newVersion
      · simp only [if_pos hskip]
        exact ih store h
      · simp only [if_neg hskip]
        by_cases hex : store.any fun q => q.1 = w ∧ q.2 = newVersion
        · simp only [if_pos hex]
          exact ih store h
        · simp only [if_neg hex]
          by_cases hwv : w = v
          · subst hwv
            have hmem : (w, newVersion) ∈ store ++ [(w, newVersion)] :=
              List.mem_append_right _ (List.mem_singleton.mpr rfl)
            rw [runPersistLoop_count_of_mem newVersion rest _ w hmem,
              List.count_append, h, List.count_singleton]
            simp
          · have hcount : List.count (v, newVersion)
                (store ++ [(w, newVersion)]) = 0 := by
              rw [List.count_append, h]
              simp [hwv, Ne.symm hwv]
            exact ih (store ++ [(w, newVersion)]) hcount

theorem runPersistLoop_mem_of_attempted (newVersion : String)
    (versions : List String) (store : List (String × String))
    (v : String) (hmem : v ∈ versions)
    (hattempt : versionSkipped v newVersion = false) :
    (v, newVersion) ∈ runPersistLoop newVersion versions store := by
  induction versions generalizing store with
  | nil => cases hmem
  | cons w rest ih =>
      rw [runPersistLoop]
      rcases List.mem_cons.mp hmem with hv | hv
      · subst hv
        rw [hattempt]
        simp only [Bool.false_eq_true, if_false]
        by_cases hex : store.any fun q => q.1 = v ∧ q.2 = newVersion
        · simp only [if_pos hex]
          rcases List.any_eq_true.mp hex with ⟨q, hq, hqeq⟩
          have : q = (v, newVersion) := by
            have h1 := of_decide_eq_true hqeq
            exact Prod.ext h1.1 h1.2
          exact runPersistLoop_store_mono newVersion rest store _ (this ▸ hq)
        · simp only [if_neg hex]
          exact runPersistLoop_store_mono newVersion rest _ _
            (List.mem_append_right _ (List.mem_singleton.mpr rfl))
      · by_cases hskip : versionSkipped w newVersion
        · simp only [if_pos hskip]
          exact ih store hv
        · simp only [if_neg hskip]
          by_cases hex : store.any fun q => q.1 = w ∧ q.2 = newVersion
          · simp only [if_pos hex]
            exact ih store hv
          · simp only [if_neg hex]
            exact ih (store ++ [(w, newVersion)]) hv

theorem runPersistLoop_second_run_id (newVersion : String)
    (versions : List String) (store : List (String × String))
    (hall : ∀ v ∈ versions, versionSkipped v newVersion = false →
      (v, newVersion) ∈ store) :
    runPersistLoop newVersion versions store = store := by
  induction versions with
  | nil => rfl
  | cons w rest ih =>
      rw [runPersistLoop]
      by_cases hskip : versionSkipped w newVersion
      · simp only [if_pos hskip]
        exact ih fun v hv ha => hall v (List.mem_cons_of_mem _ hv) ha
      · simp only [if_neg hskip]
        have hex : (store.any fun q => q.1 = w ∧ q.2 = newVersion) = true := by
          refine List.any_eq_true.mpr ⟨(w, newVersion), ?_, by simp⟩
          exact hall w (List.mem_cons_self _ _)
            (Bool.not_eq_true _ ▸ (by simpa using hskip))
        rw [hex]
        simp only [if_true]
        exact ih fun v hv ha => hall v (List.mem_cons_of_mem _ hv) ha

/-- C5: starting from an empty store, running the persistence loop of
`Run` twice with the same new version and known-version list leaves the
store of the first run unchanged — an existing (from, to) record makes the
pair be skipped — and every attempted pair has exactly one record, never
two. -/
theorem run_idempotent (newVersion : String) (versions : List String)
    (v : String) (hmem : v ∈ versions)
    (hattempt : versionSkipped v newVersion = false) :
    runPersistLoop newVersion versions
        (runPersistLoop newVersion versions []) =
      runPersistLoop newVersion versions [] ∧
    List.count (v, newVersion) (runPersistLoop newVersion versions []) =
      1 := by
  constructor
  · exact runPersistLoop_second_run_id newVersion versions _
      fun w hw ha => runPersistLoop_mem_of_attempted newVersion versions [] w hw ha
  · have hle := runPersistLoop_count_le_one newVersion versions [] v
      (by simp)
    have hge : 1 ≤ List.count (v, newVersion)
        (runPersistLoop newVersion versions []) :=
      List.count_pos_iff.mpr
        (runPersistLoop_mem_of_attempted newVersion versions [] v hmem hattempt)
    omega

/-- Witness for C5 with known versions "100" and "200" and new version
"300". -/
theorem run_idempotent_witness :
    runPersistLoop "300" ["100", "200"]
        (runPersistLoop "300" ["100", "200"] []) =
      runPersistLoop "300" ["100", "200"] [] ∧
    List.count ("100", "300") (runPersistLoop "300" ["100", "200"] []) =
      1 :=
  run_idempotent "300" ["100", "200"] "100"
    (List.mem_cons_self _ _) (by decide)

/-- `getVersionHashes` from packager.go with the I/O injected: the cache
file read, JSON unmarshal of a hit, hash generation on a miss, JSON
marshal of the fresh hashes and the cache write-back (whose result the Go
code discards with `_ =`). -/
def getVersionHashesModel (readResult : Except String String)
    (unmarshal : String → Except String Manifest)
    (generateResult : Except String Manifest)
    (marshalResult : Manifest → Except String String)
    (writeResult : String → Except String Unit) : Except String Manifest :=
  match readResult with
  | Except.error _ =>
      match generateResult with
      | Except.error e => Except.error e
      | Except.ok hashes =>
          match marshalResult hashes with
          | Except.error _ => Except.ok hashes
          | Except.ok hashJSON =>
              let _ := writeResult hashJSON
              Except.ok hashes
  | Except.ok hashFile =>
      match unmarshal hashFile with
      | Except.error e => Except.error e
      | Except.ok hashes => Except.ok hashes

/-- C8: on a cache hit that parses, the cached manifest is returned for
every possible generation outcome (the tree is not re-hashed); on a cache
miss with a successful rebuild, the fresh manifest is returned with no
error for every marshal and write outcome — a failed serialization or
cache write never fails the call. -/
theorem getVersionHashes_cache (unmarshal : String → Except String Manifest)
    (contents : String) (cached fresh : Manifest)
    (generateResult : Except String Manifest)
    (hparse : unmarshal contents = Except.ok cached)
    (hgen : generateResult = Except.ok fresh) :
    (∀ (gen2 : Except String Manifest)
        (marshal2 : Manifest → Except String String)
        (write2 : String → Except String Unit),
      getVersionHashesModel (Except.ok contents) unmarshal gen2
        marshal2 write2 = Except.ok cached) ∧
    ∀ (readErr : String) (marshal2 : Manifest → Except String String)
        (write2 : String → Except String Unit),
      getVersionHashesModel (Except.error readErr) unmarshal
        generateResult marshal2 write2 = Except.ok fresh := by
  constructor
  · intro gen2 marshal2 write2
    simp [getVersionHashesModel, hparse]
  · intro readErr marshal2 write2
    subst hgen
    cases hm : marshal2 fresh <;> simp [getVersionHashesModel, hm]

/-- Witness for C8 with a one-entry cached manifest, a failing marshal and
a failing write. -/
theorem getVersionHashes_cache_witness :
    (∀ (gen2 : Except String Manifest)
        (marshal2 : Manifest → Except String String)
        (write2 : String → Except String Unit),
      getVersionHashesModel (Except.ok "cachefile")
        (fun _ => Except.ok [("f.txt", "aa")]) gen2 marshal2 write2 =
        Except.ok [("f.txt", "aa")]) ∧
    ∀ (readErr : String) (marshal2 : Manifest → Except String String)
        (write2 : String → Except String Unit),
      getVersionHashesModel (Except.error readErr)
        (fun _ => Except.ok [("f.txt", "aa")])
        (Except.ok [("g.txt", "bb")]) marshal2 write2 =
        Except.ok [("g.txt", "bb")] :=
  getVersionHashes_cache (fun _ => Except.ok [("f.txt", "aa")])
    "cachefile" [("f.txt", "aa")] [("g.txt", "bb")]
    (Except.ok [("g.txt", "bb")]) rfl rfl

/-- The permission behaviour of `CopyFile` from packager.go: the
destination is created by `os.Create` with the default mode; after a
successful `io.Copy` the code runs `os.Stat(source)` but then guards the
`os.Chmod` with `if err != nil` on the shadowed inner error, so the chmod
runs only when the stat FAILED — in which case `sourceinfo` is nil and
`sourceinfo.Mode()` panics (modelled as `none`).  When the stat succeeds,
no chmod happens and the destination keeps the default create mode. -/
def copyFileDestMode (copySucceeded : Bool) (statResult : Option Nat)
    (createMode : Nat) : Option Nat :=
  if copySucceeded then
    match statResult with
    | some _ => some createMode
    | none => none
  else some createMode

/-- C9: after a successful copy of a source file with permission bits
0o755 whose stat succeeds, the destination keeps the default create mode
0o644 instead of the source's bits — `CopyFile` does not preserve
permissions, contradicting its own doc comment. -/
theorem copyFile_does_not_preserve_permissions :
    copyFileDestMode true (some 0o755) 0o644 = some 0o644 ∧
      (0o644 : Nat) ≠ 0o755 := by
  exact ⟨rfl, by decide⟩

/-- The key slice built by `generateDeltaHash` (old packager source):
`make([]string, len(deltaOperations))` allocates that many empty strings,
and the subsequent `append` calls add the map keys after them. -/
def deltaHashKeys (deltaOperations : List (String × String)) : List String :=
  List.replicate deltaOperations.length "" ++ deltaOperations.map Prod.fst

/-- `sort.Strings`: ascending lexicographic sort of the key slice. -/
def sortStrings (keys : List String) : List String :=
  List.insertionSort (fun a b => a ≤ b) keys

/-- The byte stream fed to the hasher by `generateDeltaHash`: the
operation values written in sorted key order (looking up one of the empty
strings left by the `make` call yields the map's zero value ""). -/
def deltaHashInput (deltaOperations : List (String × String)) : String :=
  String.join ((sortStrings (deltaHashKeys deltaOperations)).map
    fun key => (List.lookup key deltaOperations).getD "")

/-- `generateDeltaHash`, parameterized by the digest function applied to
the accumulated bytes (SHA-256 hex in Go): determinism of the fingerprint
is exactly determinism of the accumulated byte stream, for every digest
function. -/
def generateDeltaHash (sha256hex : String → String)
    (deltaOperations : List (String × String)) : String :=
  sha256hex (deltaHashInput deltaOperations)

theorem lookup_cons_ne {k key v : String} {t : Manifest} (h : k ≠ key) :
    List.lookup k ((key, v) :: t) = List.lookup k t := by
  rw [List.lookup_cons, beq_eq_false_iff_ne.mpr h]

theorem keysNodup_tail {e : String × String} {t : Manifest}
    (h : KeysNodup (e :: t)) : KeysNodup t := by
  rw [KeysNodup, List.map_cons, List.nodup_cons] at h
  exact h.2

theorem lookup_eq_of_perm (d1 d2 : List (String × String))
    (hperm : d1.Perm d2) :
    KeysNodup d1 → ∀ k, List.lookup k d1 = List.lookup k d2 := by
  induction hperm with
  | nil => exact fun _ _ => rfl
  | cons x h ih =>
      intro hnd k
      obtain ⟨kx, vx⟩ := x
      by_cases hk : k = kx
      · subst hk
        rw [List.lookup_cons_self, List.lookup_cons_self]
      · rw [lookup_cons_ne hk, lookup_cons_ne hk]
        exact ih (keysNodup_tail hnd) k
  | swap x y l =>
      intro hnd k
      obtain ⟨kx, vx⟩ := x
      obtain ⟨ky, vy⟩ := y
      have hxy : ky ≠ kx := by
        rw [KeysNodup, List.map_cons, List.map_cons, List.nodup_cons] at hnd
        exact fun hcon => hnd.1 (hcon ▸ List.mem_cons_self _ _)
      by_cases hky : k = ky
      · subst hky
        rw [List.lookup_cons_self, lookup_cons_ne hxy, List.lookup_cons_self]
      · by_cases hkx : k = kx
        · subst hkx
          rw [lookup_cons_ne hky, List.lookup_cons_self, List.lookup_cons_self]
        · rw [lookup_cons_ne hky, lookup_cons_ne hkx, lookup_cons_ne hkx,
            lookup_cons_ne hky]
  | @trans l1 l2 l3 h1 h2 ih1 ih2 =>
      intro hnd k
      have hnd2 : KeysNodup l2 := by
        rw [KeysNodup] at hnd ⊢
        exact ((h1.map Prod.fst).nodup_iff).mp hnd
      exact (ih1 hnd k).trans (ih2 hnd2 k)

theorem sortStrings_eq_of_perm (l1 l2 : List String) (h : l1.Perm l2) :
    sortStrings l1 = sortStrings l2 :=
  List.eq_of_perm_of_sorted
    ((List.perm_insertionSort _ l1).trans
      (h.trans (List.perm_insertionSort _ l2).symm))
    (List.sorted_insertionSort _ l1) (List.sorted_insertionSort _ l2)

/-- C7: the delta fingerprint is deterministic — two delta maps with the
same key/value contents in any insertion order produce the same
accumulated byte stream (keys are sorted before hashing), hence the same
hash under every digest function. -/
theorem generateDeltaHash_deterministic (sha256hex : String → String)
    (d1 d2 : List (String × String)) (hperm : d1.Perm d2)
    (hnd : KeysNodup d1) :
    generateDeltaHash sha256hex d1 = generateDeltaHash sha256hex d2 := by
  unfold generateDeltaHash deltaHashInput
  have hkeys : (deltaHashKeys d1).Perm (deltaHashKeys d2) := by
    unfold deltaHashKeys
    rw [hperm.length_eq]
    exact (List.Perm.refl _).append (hperm.map Prod.fst)
  rw [sortStrings_eq_of_perm _ _ hkeys]
  have hlk := lookup_eq_of_perm d1 d2 hperm hnd
  simp only [hlk]

/-- Witness for C7: the Scenario A delta in two insertion orders. -/
theorem generateDeltaHash_deterministic_witness :
    generateDeltaHash (fun s => s)
        [("b.dat", "modified"), ("c.txt", "added")] =
      generateDeltaHash (fun s => s)
        [("c.txt", "added"), ("b.dat", "modified")] :=
  generateDeltaHash_deterministic (fun s => s)
    [("b.dat", "modified"), ("c.txt", "added")]
    [("c.txt", "added"), ("b.dat", "modified")]
    (List.Perm.swap _ _ _) (by decide)

/-- Truncation to 32 bits, applied wherever Go's uint32 wraps. -/
def w32 (n : Nat) : Nat := n % 4294967296

/-- Right rotation of a 32-bit word: the low bits wrap to the top, and for
inputs below 2 to the 32 the two parts occupy disjoint bit ranges, so
addition equals bitwise or. -/
def rotr32 (x n : Nat) : Nat := x / 2 ^ n + x % 2 ^ n * 2 ^ (32 - n)

/-- Logical right shift of a 32-bit word. -/
def shr32 (x n : Nat) : Nat := x / 2 ^ n

/-- SHA-256 choice function. -/
def sha256Ch (x y z : Nat) : Nat :=
  (x &&& y) ^^^ ((x ^^^ 4294967295) &&& z)

/-- SHA-256 majority function. -/
def sha256Maj (x y z : Nat) : Nat :=
  (x &&& y) ^^^ (x &&& z) ^^^ (y &&& z)

/-- SHA-256 big sigma 0. -/
def sha256S0 (x : Nat) : Nat := rotr32 x 2 ^^^ rotr32 x 13 ^^^ rotr32 x 22

/-- SHA-256 big sigma 1. -/
def sha256S1 (x : Nat) : Nat := rotr32 x 6 ^^^ rotr32 x 11 ^^^ rotr32 x 25

/-- SHA-256 small sigma 0. -/
def sha256s0 (x : Nat) : Nat := rotr32 x 7 ^^^ rotr32 x 18 ^^^ shr32 x 3

/-- SHA-256 small sigma 1. -/
def sha256s1 (x : Nat) : Nat := rotr32 x 17 ^^^ rotr32 x 19 ^^^ shr32 x 10

/-- The 64 SHA-256 round constants (FIPS 180-4), written in decimal. -/
def sha256K : List Nat :=
  [1116352408, 1899447441, 3049323471, 3921009573, 961987163,
   1508970993, 2453635748, 2870763221, 3624381080, 310598401,
   607225278, 1426881987, 1925078388, 2162078206, 2614888103,
   3248222580, 3835390401, 4022224774, 264347078, 604807628,
   770255983, 1249150122, 1555081692, 1996064986, 2554220882,
   2821834349, 2952996808, 3210313671, 3336571891, 3584528711,
   113926993, 338241895, 666307205, 773529912, 1294757372,
   1396182291, 1695183700, 1986661051, 2177026350, 2456956037,
   2730485921, 2820302411, 3259730800, 3345764771, 3516065817,
   3600352804, 4094571909, 275423344, 430227734, 506948616,
   659060556, 883997877, 958139571, 1322822218, 1537002063,
   1747873779, 1955562222, 2024104815, 2227730452, 2361852424,
   2428436474, 2756734187, 3204031479, 3329325298]

/-- The SHA-256 initial hash state (FIPS 180-4), written in decimal. -/
def sha256H0 : List Nat :=
  [1779033703, 3144134277, 1013904242, 2773480762,
   1359893119, 2600822924, 528734635, 1541459225]

/-- SHA-256 padding: the 0x80 byte, zeros to 56 mod 64, and the bit
length as eight big-endian bytes. -/
def sha256Pad (msg : List Nat) : List Nat :=
  let len := msg.length
  let zeroCount := (64 + 56 - (len + 1) % 64) % 64
  msg ++ [128] ++ List.replicate zeroCount 0 ++
    (List.range 8).map fun i => len * 8 / 2 ^ (56 - 8 * i) % 256

/-- Splits the padded byte stream into 64-byte blocks; the fuel argument
bounds the number of blocks (one unit of fuel per block). -/
def chunkBlocksFuel : Nat → List Nat → List (List Nat)
  | 0, _ => []
  | _, [] => []
  | fuel + 1, bytes => bytes.take 64 :: chunkBlocksFuel fuel (bytes.drop 64)

/-- Splits a padded byte stream into its 64-byte blocks. -/
def chunkBlocks (bytes : List Nat) : List (List Nat) :=
  chunkBlocksFuel bytes.length bytes

/-- The sixteen big-endian 32-bit words of one block. -/
def wordsOfBlock (block : List Nat) : List Nat :=
  (List.range 16).map fun i =>
    block.getD (4 * i) 0 * 16777216 + block.getD (4 * i + 1) 0 * 65536 +
      block.getD (4 * i + 2) 0 * 256 + block.getD (4 * i + 3) 0

/-- One extension step of the message schedule. -/
def extendScheduleStep (w : List Nat) : List Nat :=
  w ++ [w32 (sha256s1 (w.getD (w.length - 2) 0) + w.getD (w.length - 7) 0 +
    sha256s0 (w.getD (w.length - 15) 0) + w.getD (w.length - 16) 0)]

/-- Iterates a list transformer a fixed number of times. -/
def iterN (f : List Nat → List Nat) : Nat → List Nat → List Nat
  | 0, a => a
  | n + 1, a => iterN f n (f a)

/-- The 64-word message schedule of one block. -/
def messageSchedule (block : List Nat) : List Nat :=
  iterN extendScheduleStep 48 (wordsOfBlock block)

/-- One SHA-256 compression round on the eight-word working state. -/
def sha256Round (st : List Nat) (kw : Nat × Nat) : List Nat :=
  match st with
  | [a, b, c, d, e, f, g, h] =>
      let t1 := w32 (h + sha256S1 e + sha256Ch e f g + kw.1 + kw.2)
      let t2 := w32 (sha256S0 a + sha256Maj a b c)
      [w32 (t1 + t2), a, b, c, w32 (d + t1), e, f, g]
  | other => other

/-- Compression of one block into the running hash state. -/
def compressBlock (hs : List Nat) (block : List Nat) : List Nat :=
  let ws := messageSchedule block
  let st := (sha256K.zip ws).foldl sha256Round hs
  (hs.zip st).map fun p => w32 (p.1 + p.2)

/-- The eight final SHA-256 state words of a byte stream. -/
def sha256Words (msg : List Nat) : List Nat :=
  (chunkBlocks (sha256Pad msg)).foldl compressBlock sha256H0

/-- Lowercase hex digit of a value below 16. -/
def hexDigit (n : Nat) : Char :=
  if n < 10 then Char.ofNat (48 + n) else Char.ofNat (87 + n)

/-- The eight lowercase hex digits of a 32-bit word, most significant
first (Go's "%x" on the digest bytes). -/
def wordHex (n : Nat) : List Char :=
  (List.range 8).map fun i => hexDigit (n / 2 ^ (28 - 4 * i) % 16)

/-- SHA-256 of a byte stream as a lowercase hex string, the value
`fmt.Sprintf("%x", hasher.Sum(nil))` produces in `generateHashes`. -/
def sha256hex (msg : List Nat) : String :=
  String.mk (((sha256Words msg).map wordHex).foldr List.append [])

theorem sha256hex_abc :
    sha256hex [97, 98, 99] =
      "ba7816bf8f01cfea414140de5dae2223b00361a396177a9cb410ff61f20015ad" := by
  rfl

/-- The constant the code assigns to zero-byte files (packager.go:627). -/
def zeroByteHash : String :=
  "e3b0c44298fc1c149afbf4c8996fb92427ae41e4649b934ca495991b7852b855"

theorem sha256hex_nil : sha256hex [] = zeroByteHash := by
  rfl

/-- `generateHashes` from packager.go over an abstract file tree, given as
a list of (relative path, content bytes) pairs (the walk and the
root-prefix stripping are the model boundary): a zero-length file gets the
hard-coded constant, every other file the SHA-256 hex digest of its
contents. -/
def generateHashes (files : List (String × List Nat)) : Manifest :=
  files.map fun e =>
    (e.1, if e.2.length = 0 then zeroByteHash else sha256hex e.2)

/-- C6: the manifest value of a zero-length file is exactly the canonical
SHA-256 digest of the empty byte stream — the constant in the code equals
`sha256hex []` computed by the embedded SHA-256. -/
theorem zeroByte_hash_canonical (files : List (String × List Nat))
    (p : String) (hmem : (p, ([] : List Nat)) ∈ files)
    (hnd : (files.map Prod.fst).Nodup) :
    List.lookup p (generateHashes files) = some (sha256hex []) ∧
      zeroByteHash = sha256hex [] := by
  refine ⟨?_, sha256hex_nil.symm⟩
  induction files with
  | nil => cases hmem
  | cons e t ih =>
      rw [List.map_cons, List.nodup_cons] at hnd
      rcases List.mem_cons.mp hmem with he | hte
      · have he1 : e.1 = p := by rw [← he]
        have he2 : e.2 = [] := by rw [← he]
        rw [generateHashes, List.map_cons, he1, he2]
        simp [List.lookup_cons_self, sha256hex_nil]
      · have hne : p ≠ e.1 := by
          intro hcon
          exact hnd.1 (hcon ▸ List.mem_map.mpr ⟨(p, []), hte, rfl⟩)
        rw [generateHashes, List.map_cons]
        rw [lookup_cons_ne hne]
        exact ih hte hnd.2

/-- Witness for C6 on a tree holding one empty file. -/
theorem zeroByte_hash_canonical_witness :
    List.lookup "empty.txt" (generateHashes [("empty.txt", [])]) =
        some (sha256hex []) ∧
      zeroByteHash = sha256hex [] :=
  zeroByte_hash_canonical [("empty.txt", [])] "empty.txt"
    (List.mem_singleton.mpr rfl) (by decide)

end Ut4Packager
